import Mathlib

/-!
Verification of the media-type header parser in `falcon/cyutil/mediatypes.pyx`.

The parser works on the UTF-8 encoding of its input string.  We model a
Python `str` as the list of its Unicode scalar values (`List Nat`, each
element a scalar code point), bytes as `Nat` (each `< 256` in practice), and
`str.encode()` / `bytes.decode('utf-8')` as an explicit UTF-8 encoder and a
strict, fallible UTF-8 decoder (`Option`-valued, `none` = `UnicodeDecodeError`).

The index loops of the Cython code are embedded as structurally recursive
functions with an explicit fuel equal to the number of loop iterations, so
that every function computes by `decide` / `rfl`.
-/

namespace Falcon

/-- Bytes of the Python bytes literal `b' \t\r\n'` used by `_trimmed`. -/
def wsByte (b : Nat) : Bool :=
  b == 32 || b == 9 || b == 13 || b == 10

/-- Unicode scalar value: a code point below 0x110000 that is not a surrogate. -/
def isScalar (c : Nat) : Bool :=
  c < 1114112 && !(55296 ≤ c && c < 57344)

/-- Every code point of the list is a Unicode scalar value (a valid Python `str`). -/
abbrev AllScalar (cs : List Nat) : Prop := ∀ c ∈ cs, isScalar c = true

/-- UTF-8 encoding of one Unicode scalar value (1 to 4 bytes). -/
def utf8EncodeChar (c : Nat) : List Nat :=
  if c < 128 then [c]
  else if c < 2048 then [192 + c / 64, 128 + c % 64]
  else if c < 65536 then [224 + c / 4096, 128 + c / 64 % 64, 128 + c % 64]
  else [240 + c / 262144, 128 + c / 4096 % 64, 128 + c / 64 % 64, 128 + c % 64]

/-- UTF-8 encoding of a string (list of scalar values); models `line.encode()`. -/
def utf8Encode : List Nat → List Nat
  | [] => []
  | c :: cs => utf8EncodeChar c ++ utf8Encode cs

/-- One step of strict UTF-8 decoding, processing a byte at a time.  The
state is the number of continuation bytes still expected (`need`), the
partial code point accumulated so far (`acc`), and the smallest code point
that the current multi-byte sequence is allowed to produce (`lo`, which
rejects overlong forms).  On completing a code point the uniform check
rejects values below `lo`, above 0x10FFFF, and surrogates. -/
def utf8DecodeLoop : List Nat → Nat → Nat → Nat → Option (List Nat)
  | [], 0, _, _ => some []
  | [], _ + 1, _, _ => none
  | b :: bs, 0, _, _ =>
    if b < 128 then (utf8DecodeLoop bs 0 0 0).map (fun cs => b :: cs)
    else if b < 194 then none
    else if b < 224 then utf8DecodeLoop bs 1 (b - 192) 128
    else if b < 240 then utf8DecodeLoop bs 2 (b - 224) 2048
    else if b < 245 then utf8DecodeLoop bs 3 (b - 240) 65536
    else none
  | b :: bs, 1, acc, lo =>
    if 128 ≤ b && b < 192 then
      if lo ≤ acc * 64 + (b - 128) && (acc * 64 + (b - 128) < 1114112 &&
          !(55296 ≤ acc * 64 + (b - 128) && acc * 64 + (b - 128) < 57344)) then
        (utf8DecodeLoop bs 0 0 0).map (fun cs => (acc * 64 + (b - 128)) :: cs)
      else none
    else none
  | b :: bs, need + 2, acc, lo =>
    if 128 ≤ b && b < 192 then utf8DecodeLoop bs (need + 1) (acc * 64 + (b - 128)) lo
    else none

/-- Strict UTF-8 decoding; models `bytes.decode('utf-8')`, with `none` playing
the role of `UnicodeDecodeError` (rejects continuation-byte leads, overlong
forms, truncated sequences, surrogates and out-of-range code points). -/
def utf8Decode (bs : List Nat) : Option (List Nat) := utf8DecodeLoop bs 0 0 0

/-- First loop of `_trimmed`: `for pos in range(start, end)` breaking at the
first non-whitespace byte; the fuel is the number of remaining iterations.
`none` models the `for`/`else` fall-through (`return EMPTY`). -/
def scanStartAux (data : List Nat) : Nat → Nat → Option Nat
  | _, 0 => none
  | pos, n + 1 =>
    if wsByte (data.getD pos 0) then scanStartAux data (pos + 1) n else some pos

/-- `scanStart data start stop` runs the first loop of `_trimmed` over
`range(start, stop)`. -/
def scanStart (data : List Nat) (start stop : Nat) : Option Nat :=
  scanStartAux data start (stop - start)

/-- Second loop of `_trimmed`: `for pos in range(end, start+1, -1)` breaking
when `data[pos-1]` is not whitespace.  `none` models running the loop to
exhaustion without a `break` (in which case `end` keeps its original value). -/
def scanEndAux (data : List Nat) : Nat → Nat → Option Nat
  | _, 0 => none
  | pos, n + 1 =>
    if wsByte (data.getD (pos - 1) 0) then scanEndAux data (pos - 1) n else some pos

/-- `scanEnd data lo pos` runs the second loop of `_trimmed`, iterating `pos`
downward while `pos > lo` (with `lo = start + 1`). -/
def scanEnd (data : List Nat) (lo pos : Nat) : Option Nat :=
  scanEndAux data pos (pos - lo)

/-- The byte slice `data[s:e]`. -/
def slice (data : List Nat) (s e : Nat) : List Nat := (data.take e).drop s

/-- Model of `_trimmed(data, start, end)`: trim leading and trailing bytes of
`b' \t\r\n'` from `data[start:end]` exactly as the two loops do, then decode
the span as UTF-8 (the empty string is returned when all bytes are
whitespace). -/
def _trimmed (data : List Nat) (s e : Nat) : Option (List Nat) :=
  match scanStart data s e with
  | none => some []
  | some s' =>
    match scanEnd data (s' + 1) e with
    | some e' => utf8Decode (slice data s' e')
    | none => utf8Decode (slice data s' e)

/-- Parameter dictionary of the parser; the scan never inserts into it. -/
abbrev Params := List (List Nat × List Nat)

/-- The scanning loop of `_parse_bytes`: walk `pos` over `range(0, length)`
with the `in_quotes` flag.  Note that, as in the source, no branch ever sets
`in_quotes` to `True`; the quote branch only mirrors the `if in_quotes:`
block (including the fall-through to the separator test after a closing
quote).  Fuel is `length - pos`. -/
def parseLoopAux (data : List Nat) (length : Nat) :
    Nat → Bool → Nat → Option (List Nat) × Params
  | _, _, 0 => (_trimmed data 0 length, [])
  | pos, in_quotes, n + 1 =>
    if in_quotes then
      if data.getD pos 0 == 34 then
        if data.getD pos 0 == 59 then (_trimmed data 0 pos, [])
        else parseLoopAux data length (pos + 1) false n
      else parseLoopAux data length (pos + 1) in_quotes n
    else
      if data.getD pos 0 == 59 then (_trimmed data 0 pos, [])
      else parseLoopAux data length (pos + 1) in_quotes n

/-- Model of `_parse_bytes(data, length)`: scan for a separator starting at
position `0` with `in_quotes = False` and an empty parameter dictionary. -/
def _parse_bytes (data : List Nat) (length : Nat) : Option (List Nat) × Params :=
  parseLoopAux data length 0 false length

/-- Model of `parse_header(line)`: encode the input string as UTF-8 and run
`_parse_bytes` on the resulting byte string. -/
def parse_header (line : List Nat) : Option (List Nat) × Params :=
  _parse_bytes (utf8Encode line) (utf8Encode line).length

/-- Position of the first `b';'` at or after `pos` (the position where the
scanning loop of `_parse_bytes` returns early), with fuel as in the loop. -/
def firstSemiAux (data : List Nat) : Nat → Nat → Nat
  | pos, 0 => pos
  | pos, n + 1 =>
    if data.getD pos 0 == 59 then pos else firstSemiAux data (pos + 1) n

/-! ### Generic helpers about list indexing -/

lemma getD_take (l : List Nat) : ∀ n i, i < n → (l.take n).getD i 0 = l.getD i 0 := by
  induction l with
  | nil => intro n i _; simp
  | cons a t ih =>
    intro n i hin
    cases n with
    | zero => omega
    | succ n =>
      cases i with
      | zero => rfl
      | succ i =>
        simp only [List.take_succ_cons, List.getD_cons_succ]
        exact ih n i (by omega)

lemma getD_drop (l : List Nat) : ∀ n i, (l.drop n).getD i 0 = l.getD (n + i) 0 := by
  induction l with
  | nil => intro n i; simp
  | cons a t ih =>
    intro n i
    cases n with
    | zero => simp
    | succ n =>
      simp only [List.drop_succ_cons]
      rw [ih n i]
      have : n + 1 + i = (n + i) + 1 := by omega
      rw [this, List.getD_cons_succ]

lemma mem_getD (l : List Nat) (b : Nat) (hb : b ∈ l) :
    ∃ i, i < l.length ∧ l.getD i 0 = b := by
  induction l with
  | nil => simp at hb
  | cons a t ih =>
    rcases List.mem_cons.mp hb with h | h
    · exact ⟨0, by simp, by simp [h]⟩
    · obtain ⟨i, hi, hg⟩ := ih h
      exact ⟨i + 1, by simpa using hi, by simpa using hg⟩

lemma getD_mem (l : List Nat) : ∀ i, i < l.length → l.getD i 0 ∈ l := by
  induction l with
  | nil => intro i h; simp at h
  | cons a t ih =>
    intro i h
    cases i with
    | zero => simp
    | succ i =>
      simp only [List.getD_cons_succ, List.mem_cons]
      exact Or.inr (ih i (by simpa using h))

lemma take_append_left (l₂ : List Nat) :
    ∀ (l₁ : List Nat) n, n ≤ l₁.length → (l₁ ++ l₂).take n = l₁.take n := by
  intro l₁
  induction l₁ with
  | nil =>
    intro n h
    simp only [List.length_nil, Nat.le_zero] at h
    subst h
    simp
  | cons a t ih =>
    intro n h
    cases n with
    | zero => simp
    | succ n => simpa using ih n (by simpa using h)

lemma drop_append_left (l₂ : List Nat) :
    ∀ (l₁ : List Nat) n, n ≤ l₁.length → (l₁ ++ l₂).drop n = l₁.drop n ++ l₂ := by
  intro l₁
  induction l₁ with
  | nil =>
    intro n h
    simp only [List.length_nil, Nat.le_zero] at h
    subst h
    simp
  | cons a t ih =>
    intro n h
    cases n with
    | zero => simp
    | succ n => simpa using ih n (by simpa using h)

/-! ### Characterization of the scanning loops -/

lemma scanStartAux_none (data : List Nat) :
    ∀ fuel pos, scanStartAux data pos fuel = none →
      ∀ i, pos ≤ i → i < pos + fuel → wsByte (data.getD i 0) = true := by
  intro fuel
  induction fuel with
  | zero => intro pos _ i h1 h2; omega
  | succ n ih =>
    intro pos h i h1 h2
    rw [scanStartAux] at h
    by_cases hw : wsByte (data.getD pos 0) = true
    · rw [if_pos hw] at h
      rcases Nat.eq_or_lt_of_le h1 with rfl | hlt
      · exact hw
      · exact ih (pos + 1) h i hlt (by omega)
    · rw [if_neg hw] at h
      exact absurd h (by simp)

lemma scanStartAux_none_intro (data : List Nat) :
    ∀ fuel pos, (∀ i, pos ≤ i → i < pos + fuel → wsByte (data.getD i 0) = true) →
      scanStartAux data pos fuel = none := by
  intro fuel
  induction fuel with
  | zero => intro pos _; rfl
  | succ n ih =>
    intro pos h
    rw [scanStartAux, if_pos (h pos (le_refl _) (by omega))]
    exact ih (pos + 1) fun i h1 h2 => h i (by omega) (by omega)

lemma scanStartAux_some (data : List Nat) :
    ∀ fuel pos s', scanStartAux data pos fuel = some s' →
      pos ≤ s' ∧ s' < pos + fuel ∧ wsByte (data.getD s' 0) = false ∧
        ∀ i, pos ≤ i → i < s' → wsByte (data.getD i 0) = true := by
  intro fuel
  induction fuel with
  | zero => intro pos s' h; exact absurd h (by simp [scanStartAux])
  | succ n ih =>
    intro pos s' h
    rw [scanStartAux] at h
    by_cases hw : wsByte (data.getD pos 0) = true
    · rw [if_pos hw] at h
      obtain ⟨h1, h2, h3, h4⟩ := ih (pos + 1) s' h
      refine ⟨by omega, by omega, h3, fun i hi1 hi2 => ?_⟩
      rcases Nat.eq_or_lt_of_le hi1 with rfl | hlt
      · exact hw
      · exact h4 i hlt hi2
    · rw [if_neg hw] at h
      obtain rfl : pos = s' := by simpa using h
      exact ⟨le_refl _, by omega, by simpa using hw, fun i h1 h2 => by omega⟩

lemma scanEndAux_none (data : List Nat) :
    ∀ fuel pos, scanEndAux data pos fuel = none →
      ∀ i, pos - fuel ≤ i → i < pos → wsByte (data.getD i 0) = true := by
  intro fuel
  induction fuel with
  | zero => intro pos _ i h1 h2; omega
  | succ n ih =>
    intro pos h i h1 h2
    rw [scanEndAux] at h
    by_cases hw : wsByte (data.getD (pos - 1) 0) = true
    · rw [if_pos hw] at h
      by_cases hieq : i = pos - 1
      · rw [hieq]; exact hw
      · exact ih (pos - 1) h i (by omega) (by omega)
    · rw [if_neg hw] at h
      exact absurd h (by simp)

lemma scanEndAux_none_intro (data : List Nat) :
    ∀ fuel pos, fuel ≤ pos →
      (∀ i, pos - fuel ≤ i → i < pos → wsByte (data.getD i 0) = true) →
      scanEndAux data pos fuel = none := by
  intro fuel
  induction fuel with
  | zero => intro pos _ _; rfl
  | succ n ih =>
    intro pos hle h
    rw [scanEndAux, if_pos (h (pos - 1) (by omega) (by omega))]
    exact ih (pos - 1) (by omega) fun i h1 h2 => h i (by omega) (by omega)

lemma scanEndAux_some (data : List Nat) :
    ∀ fuel pos e', fuel ≤ pos → scanEndAux data pos fuel = some e' →
      pos - fuel < e' ∧ e' ≤ pos ∧ wsByte (data.getD (e' - 1) 0) = false ∧
        ∀ i, e' ≤ i → i < pos → wsByte (data.getD i 0) = true := by
  intro fuel
  induction fuel with
  | zero => intro pos e' _ h; exact absurd h (by simp [scanEndAux])
  | succ n ih =>
    intro pos e' hfp h
    rw [scanEndAux] at h
    by_cases hw : wsByte (data.getD (pos - 1) 0) = true
    · rw [if_pos hw] at h
      obtain ⟨h1, h2, h3, h4⟩ := ih (pos - 1) e' (by omega) h
      refine ⟨by omega, by omega, h3, fun i hi1 hi2 => ?_⟩
      by_cases hieq : i = pos - 1
      · rw [hieq]; exact hw
      · exact h4 i hi1 (by omega)
    · rw [if_neg hw] at h
      obtain rfl : pos = e' := by simpa using h
      exact ⟨by omega, le_refl _, by simpa using hw, fun i h1 h2 => by omega⟩

lemma firstSemiAux_bounds (data : List Nat) :
    ∀ fuel pos, pos ≤ firstSemiAux data pos fuel ∧ firstSemiAux data pos fuel ≤ pos + fuel := by
  intro fuel
  induction fuel with
  | zero => intro pos; simp [firstSemiAux]
  | succ n ih =>
    intro pos
    rw [firstSemiAux]
    by_cases h59 : (data.getD pos 0 == 59) = true
    · rw [if_pos h59]; omega
    · rw [if_neg h59]
      have := ih (pos + 1)
      omega

lemma firstSemiAux_no59 (data : List Nat) :
    ∀ fuel pos i, pos ≤ i → i < firstSemiAux data pos fuel → data.getD i 0 ≠ 59 := by
  intro fuel
  induction fuel with
  | zero =>
    intro pos i h1 h2
    rw [firstSemiAux] at h2; omega
  | succ n ih =>
    intro pos i h1 h2
    rw [firstSemiAux] at h2
    by_cases h59 : (data.getD pos 0 == 59) = true
    · rw [if_pos h59] at h2; omega
    · rw [if_neg h59] at h2
      rcases Nat.eq_or_lt_of_le h1 with rfl | hlt
      · simpa using h59
      · exact ih (pos + 1) i hlt h2

lemma firstSemiAux_at59 (data : List Nat) :
    ∀ fuel pos, firstSemiAux data pos fuel < pos + fuel →
      data.getD (firstSemiAux data pos fuel) 0 = 59 := by
  intro fuel
  induction fuel with
  | zero => intro pos h; rw [firstSemiAux] at h ⊢; omega
  | succ n ih =>
    intro pos h
    rw [firstSemiAux] at h ⊢
    by_cases h59 : (data.getD pos 0 == 59) = true
    · rw [if_pos h59] at h ⊢; simpa using h59
    · rw [if_neg h59] at h ⊢
      exact ih (pos + 1) (by omega)

lemma firstSemiAux_full (data : List Nat) :
    ∀ fuel pos, (∀ i, pos ≤ i → i < pos + fuel → data.getD i 0 ≠ 59) →
      firstSemiAux data pos fuel = pos + fuel := by
  intro fuel
  induction fuel with
  | zero => intro pos _; simp [firstSemiAux]
  | succ n ih =>
    intro pos h
    rw [firstSemiAux]
    have h0 : ¬ ((data.getD pos 0 == 59) = true) := by
      simpa using h pos (le_refl _) (by omega)
    rw [if_neg h0]
    rw [ih (pos + 1) fun i h1 h2 => h i (by omega) (by omega)]
    omega

/-- With `in_quotes = False` the scanning loop of `_parse_bytes` simply stops
at the first `b';'` byte: the `in_quotes` flag is never set to `True`. -/
lemma parseLoopAux_eq (data : List Nat) (L : Nat) :
    ∀ fuel pos, pos + fuel = L →
      parseLoopAux data L pos false fuel =
        (_trimmed data 0 (firstSemiAux data pos fuel), []) := by
  intro fuel
  induction fuel with
  | zero =>
    intro pos h
    rw [parseLoopAux, firstSemiAux]
    rw [show pos = L from by omega]
  | succ n ih =>
    intro pos h
    rw [parseLoopAux, firstSemiAux]
    simp only [Bool.false_eq_true, if_false]
    by_cases h59 : (data.getD pos 0 == 59) = true
    · rw [if_pos h59, if_pos h59]
    · rw [if_neg h59, if_neg h59]
      exact ih (pos + 1) (by omega)

/-- Unfolded form of `parse_header`: trim the prefix that ends at the first
`b';'` byte of the UTF-8 encoding (or at the end of input). -/
lemma parse_header_eq (line : List Nat) :
    parse_header line =
      (_trimmed (utf8Encode line) 0
        (firstSemiAux (utf8Encode line) 0 (utf8Encode line).length), []) :=
  parseLoopAux_eq _ _ _ 0 (by omega)

/-! ### Shape of encoded characters -/

lemma ws_lt_128 {b : Nat} (h : wsByte b = true) : b < 128 := by
  simp only [wsByte, Bool.or_eq_true, beq_iff_eq] at h
  omega

lemma encodeChar_ascii (c : Nat) (h : c < 128) : utf8EncodeChar c = [c] := by
  unfold utf8EncodeChar
  rw [if_pos h]

lemma encodeChar_two (c : Nat) (h1 : 128 ≤ c) (h2 : c < 2048) :
    utf8EncodeChar c = [192 + c / 64, 128 + c % 64] := by
  unfold utf8EncodeChar
  rw [if_neg (by omega), if_pos h2]

lemma encodeChar_three (c : Nat) (h1 : 2048 ≤ c) (h2 : c < 65536) :
    utf8EncodeChar c = [224 + c / 4096, 128 + c / 64 % 64, 128 + c % 64] := by
  unfold utf8EncodeChar
  rw [if_neg (by omega), if_neg (by omega), if_pos h2]

lemma encodeChar_four (c : Nat) (h1 : 65536 ≤ c) :
    utf8EncodeChar c = [240 + c / 262144, 128 + c / 4096 % 64, 128 + c / 64 % 64, 128 + c % 64] := by
  unfold utf8EncodeChar
  rw [if_neg (by omega), if_neg (by omega), if_neg (by omega)]

lemma encodeChar_ne_nil (c : Nat) : utf8EncodeChar c ≠ [] := by
  unfold utf8EncodeChar
  split
  · simp
  split
  · simp
  split <;> simp

lemma encodeChar_head (c b : Nat) (l : List Nat) (he : utf8EncodeChar c = b :: l)
    (hb : b < 128) : c = b ∧ l = [] := by
  by_cases h1 : c < 128
  · rw [encodeChar_ascii c h1] at he
    injection he with h h'
    exact ⟨h, h'.symm⟩
  · exfalso
    by_cases h2 : c < 2048
    · rw [encodeChar_two c (by omega) h2] at he
      injection he with h h'
      omega
    · by_cases h3 : c < 65536
      · rw [encodeChar_three c (by omega) h3] at he
        injection he with h h'
        omega
      · rw [encodeChar_four c (by omega)] at he
        injection he with h h'
        omega

lemma encodeChar_bytes_ge (c : Nat) (h : 128 ≤ c) :
    ∀ b ∈ utf8EncodeChar c, 128 ≤ b := by
  by_cases h2 : c < 2048
  · rw [encodeChar_two c h h2]
    intro b hb
    simp only [List.mem_cons, List.not_mem_nil, or_false] at hb
    rcases hb with rfl | rfl <;> omega
  · by_cases h3 : c < 65536
    · rw [encodeChar_three c (by omega) h3]
      intro b hb
      simp only [List.mem_cons, List.not_mem_nil, or_false] at hb
      rcases hb with rfl | rfl | rfl <;> omega
    · rw [encodeChar_four c (by omega)]
      intro b hb
      simp only [List.mem_cons, List.not_mem_nil, or_false] at hb
      rcases hb with rfl | rfl | rfl | rfl <;> omega

lemma mem_utf8Encode_of_mem {c : Nat} {cs : List Nat} (hc : c ∈ cs) (ha : c < 128) :
    c ∈ utf8Encode cs := by
  induction cs with
  | nil => simp at hc
  | cons d cs ih =>
    rw [utf8Encode, List.mem_append]
    rcases List.mem_cons.mp hc with rfl | h
    · rw [encodeChar_ascii c ha]
      exact Or.inl (by simp)
    · exact Or.inr (ih h)

lemma utf8Encode_ascii {cs : List Nat} (h : ∀ c ∈ cs, c < 128) : utf8Encode cs = cs := by
  induction cs with
  | nil => rfl
  | cons c cs ih =>
    rw [utf8Encode, encodeChar_ascii c (h c (by simp))]
    rw [ih fun d hd => h d (by simp [hd])]
    rfl

lemma utf8Encode_of_all_ws {cs : List Nat} (h : ∀ b ∈ utf8Encode cs, wsByte b = true) :
    utf8Encode cs = cs ∧ ∀ c ∈ cs, wsByte c = true := by
  induction cs with
  | nil => exact ⟨rfl, by simp⟩
  | cons c cs ih =>
    rw [utf8Encode] at h ⊢
    rcases he : utf8EncodeChar c with _ | ⟨b, l⟩
    · exact absurd he (encodeChar_ne_nil c)
    have hbws : wsByte b = true := h b (by rw [he]; simp)
    obtain ⟨rfl, rfl⟩ := encodeChar_head c b l he (ws_lt_128 hbws)
    have hrest : ∀ b ∈ utf8Encode cs, wsByte b = true := fun b hb =>
      h b (by rw [he]; simp [hb])
    obtain ⟨h1, h2⟩ := ih hrest
    refine ⟨by rw [h1]; rfl, fun d hd => ?_⟩
    rcases List.mem_cons.mp hd with rfl | hd'
    · exact hbws
    · exact h2 d hd'

/-! ### Decoding an encoded character -/

lemma utf8Decode_cons_ascii (b : Nat) (h : b < 128) (bs : List Nat) :
    utf8Decode (b :: bs) = (utf8Decode bs).map (fun cs => b :: cs) := by
  show utf8DecodeLoop (b :: bs) 0 0 0 = _
  rw [utf8DecodeLoop, if_pos h]
  rfl

lemma utf8Decode_encodeChar (c : Nat) (hs : isScalar c = true) (rest : List Nat) :
    utf8Decode (utf8EncodeChar c ++ rest) = (utf8Decode rest).map (fun cs => c :: cs) := by
  have hs' : c < 1114112 ∧ (c < 55296 ∨ 57344 ≤ c) := by
    simpa [isScalar, Bool.and_eq_true, Bool.not_eq_true', decide_eq_true_eq] using hs
  by_cases h1 : c < 128
  · rw [encodeChar_ascii c h1, List.singleton_append]
    exact utf8Decode_cons_ascii c h1 rest
  · by_cases h2 : c < 2048
    · rw [encodeChar_two c (by omega) h2]
      simp only [List.cons_append, List.nil_append]
      show utf8DecodeLoop _ 0 0 0 = _
      rw [utf8DecodeLoop, if_neg (by omega), if_neg (by omega), if_pos (by omega)]
      rw [utf8DecodeLoop]
      rw [if_pos (by simp only [Bool.and_eq_true, decide_eq_true_eq]; omega)]
      rw [if_pos (by
        simp only [Bool.and_eq_true, Bool.not_eq_true', Bool.and_eq_false_iff,
          decide_eq_true_eq, decide_eq_false_iff_not]
        omega)]
      have hv : (192 + c / 64 - 192) * 64 + (128 + c % 64 - 128) = c := by omega
      rw [hv]
      rfl
    · by_cases h3 : c < 65536
      · rw [encodeChar_three c (by omega) h3]
        simp only [List.cons_append, List.nil_append]
        show utf8DecodeLoop _ 0 0 0 = _
        rw [utf8DecodeLoop, if_neg (by omega), if_neg (by omega), if_neg (by omega),
          if_pos (by omega)]
        rw [utf8DecodeLoop]
        rw [if_pos (by simp only [Bool.and_eq_true, decide_eq_true_eq]; omega)]
        rw [utf8DecodeLoop]
        rw [if_pos (by simp only [Bool.and_eq_true, decide_eq_true_eq]; omega)]
        rw [if_pos (by
          simp only [Bool.and_eq_true, Bool.not_eq_true', Bool.and_eq_false_iff,
            decide_eq_true_eq, decide_eq_false_iff_not]
          omega)]
        have hv : ((224 + c / 4096 - 224) * 64 + (128 + c / 64 % 64 - 128)) * 64 +
            (128 + c % 64 - 128) = c := by omega
        rw [hv]
        rfl
      · rw [encodeChar_four c (by omega)]
        simp only [List.cons_append, List.nil_append]
        show utf8DecodeLoop _ 0 0 0 = _
        rw [utf8DecodeLoop, if_neg (by omega), if_neg (by omega), if_neg (by omega),
          if_neg (by omega), if_pos (by omega)]
        rw [utf8DecodeLoop]
        rw [if_pos (by simp only [Bool.and_eq_true, decide_eq_true_eq]; omega)]
        rw [utf8DecodeLoop]
        rw [if_pos (by simp only [Bool.and_eq_true, decide_eq_true_eq]; omega)]
        rw [utf8DecodeLoop]
        rw [if_pos (by simp only [Bool.and_eq_true, decide_eq_true_eq]; omega)]
        rw [if_pos (by
          simp only [Bool.and_eq_true, Bool.not_eq_true', Bool.and_eq_false_iff,
            decide_eq_true_eq, decide_eq_false_iff_not]
          omega)]
        have hv : (((240 + c / 262144 - 240) * 64 + (128 + c / 4096 % 64 - 128)) * 64 +
            (128 + c / 64 % 64 - 128)) * 64 + (128 + c % 64 - 128) = c := by omega
        rw [hv]
        rfl

/-- Round trip: decoding an encoded string succeeds and returns the string. -/
lemma utf8Decode_utf8Encode {cs : List Nat} (h : AllScalar cs) :
    utf8Decode (utf8Encode cs) = some cs := by
  induction cs with
  | nil => rfl
  | cons c cs ih =>
    rw [utf8Encode, utf8Decode_encodeChar c (h c (by simp)),
      ih fun d hd => h d (by simp [hd])]
    rfl

/-! ### Splitting an encoded string at ASCII boundaries -/

/-- A multi-byte encoded character cannot straddle a position where the next
byte is ASCII: every byte of the encoding of a character `≥ 128` is `≥ 128`. -/
lemma chunk_no_split {c : Nat} {cs' H T : List Nat}
    (heq : utf8EncodeChar c ++ utf8Encode cs' = H ++ T)
    (hlen : H.length < (utf8EncodeChar c).length)
    (hT : T.getD 0 0 < 128) (hc : 128 ≤ c) : False := by
  have hbyte : (utf8EncodeChar c ++ utf8Encode cs').getD H.length 0 =
      (utf8EncodeChar c).getD H.length 0 := List.getD_append _ _ _ _ hlen
  have hge : 128 ≤ (utf8EncodeChar c).getD H.length 0 :=
    encodeChar_bytes_ge c hc _ (getD_mem _ _ hlen)
  have hrhs : (H ++ T).getD H.length 0 = T.getD 0 0 := by
    simpa using List.getD_append_right H T 0 H.length (le_refl _)
  rw [heq, hrhs] at hbyte
  omega

/-- Dropping a run of whitespace (hence ASCII) bytes from the front of an
encoded string lands on a character boundary: the remainder is itself the
encoding of a suffix of the原 string. -/
lemma utf8Encode_prefix_ws (U : List Nat) :
    ∀ (cs rest : List Nat), utf8Encode cs = U ++ rest →
      (∀ b ∈ U, wsByte b = true) →
      ∃ d, cs = U ++ d ∧ utf8Encode d = rest := by
  induction U with
  | nil =>
    intro cs rest h _
    exact ⟨cs, by simp, by simpa using h⟩
  | cons b U' ih =>
    intro cs rest h hws
    rcases cs with _ | ⟨c, cs'⟩
    · rw [utf8Encode] at h
      exact absurd h.symm (by simp)
    · rw [utf8Encode] at h
      rcases hch : utf8EncodeChar c with _ | ⟨b0, ch⟩
      · exact absurd hch (encodeChar_ne_nil c)
      rw [hch] at h
      simp only [List.cons_append] at h
      injection h with hb0 htail
      subst hb0
      obtain ⟨hcb, hch0⟩ := encodeChar_head c b0 ch hch (ws_lt_128 (hws b0 (by simp)))
      subst hcb
      subst hch0
      simp only [List.nil_append] at htail
      obtain ⟨d, hd1, hd2⟩ := ih cs' rest htail fun x hx => hws x (by simp [hx])
      exact ⟨d, by rw [List.cons_append, ← hd1], hd2⟩

/-- Cutting an encoded string before a whitespace-only (hence ASCII-only)
suffix lands on a character boundary: the head part decodes successfully and
is the encoding of a prefix of the original string. -/
lemma utf8Decode_span :
    ∀ (cs H T : List Nat), AllScalar cs → utf8Encode cs = H ++ T →
      (∀ b ∈ T, wsByte b = true) →
      ∃ d, utf8Decode H = some d ∧ cs = d ++ T ∧ utf8Encode d = H := by
  intro cs
  induction cs with
  | nil =>
    intro H T _ h _
    rw [utf8Encode] at h
    obtain ⟨rfl, rfl⟩ := List.append_eq_nil.mp h.symm
    exact ⟨[], rfl, rfl, rfl⟩
  | cons c cs' ih =>
    intro H T hsc h hT
    rcases eq_or_ne H [] with rfl | hne
    · simp only [List.nil_append] at h
      have hallws : ∀ b ∈ utf8Encode (c :: cs'), wsByte b = true := by
        intro b hb
        exact hT b (by rw [← h]; exact hb)
      obtain ⟨henc, _⟩ := utf8Encode_of_all_ws hallws
      refine ⟨[], rfl, ?_, rfl⟩
      rw [List.nil_append, ← h, henc]
    · rw [utf8Encode] at h
      rcases Nat.lt_or_ge H.length (utf8EncodeChar c).length with hlen | hlen
      · exfalso
        refine chunk_no_split h hlen ?_ ?_
        · rcases T with _ | ⟨t0, T'⟩
          · simp
          · exact ws_lt_128 (hT t0 (by simp))
        · by_contra hc
          rw [encodeChar_ascii c (by omega)] at hlen
          have h1 : 0 < H.length := List.length_pos.mpr hne
          simp only [List.length_cons, List.length_nil] at hlen
          omega
      · have htake : utf8EncodeChar c = H.take (utf8EncodeChar c).length := by
          have h1 : (utf8EncodeChar c ++ utf8Encode cs').take (utf8EncodeChar c).length
              = utf8EncodeChar c := List.take_left _ _
          rw [h, take_append_left T H _ hlen] at h1
          exact h1.symm
        have hdrop : utf8Encode cs' = H.drop (utf8EncodeChar c).length ++ T := by
          have h1 : (utf8EncodeChar c ++ utf8Encode cs').drop (utf8EncodeChar c).length
              = utf8Encode cs' := List.drop_left _ _
          rw [h, drop_append_left T H _ hlen] at h1
          exact h1.symm
        obtain ⟨d, hd1, hd2, hd3⟩ := ih (H.drop (utf8EncodeChar c).length) T
          (fun x hx => hsc x (by simp [hx])) hdrop hT
        have hH : H = utf8EncodeChar c ++ H.drop (utf8EncodeChar c).length := by
          conv_lhs => rw [← List.take_append_drop (utf8EncodeChar c).length H]
          rw [← htake]
        refine ⟨c :: d, ?_, ?_, ?_⟩
        · rw [hH, utf8Decode_encodeChar c (hsc c (by simp)), hd1]
          rfl
        · rw [List.cons_append, ← hd2]
        · rw [utf8Encode, hd3, ← hH]

/-- Splitting an encoded string right before an ASCII byte (such as `b';'`)
lands on a character boundary on both sides. -/
lemma utf8Encode_split_ascii :
    ∀ (cs pre rest : List Nat) (b : Nat), utf8Encode cs = pre ++ b :: rest → b < 128 →
      ∃ cs₁ cs₂, cs = cs₁ ++ b :: cs₂ ∧ utf8Encode cs₁ = pre ∧ utf8Encode cs₂ = rest := by
  intro cs
  induction cs with
  | nil =>
    intro pre rest b h _
    rw [utf8Encode] at h
    exact absurd h.symm (by simp)
  | cons c cs' ih =>
    intro pre rest b h hb
    rw [utf8Encode] at h
    rcases eq_or_ne pre [] with rfl | hne
    · simp only [List.nil_append] at h
      rcases hch : utf8EncodeChar c with _ | ⟨b0, ch⟩
      · exact absurd hch (encodeChar_ne_nil c)
      rw [hch] at h
      simp only [List.cons_append] at h
      injection h with hb0 htail
      subst hb0
      obtain ⟨hcb, hch0⟩ := encodeChar_head c b0 ch hch hb
      subst hcb
      subst hch0
      simp only [List.nil_append] at htail
      exact ⟨[], cs', by simp, rfl, htail⟩
    · rcases Nat.lt_or_ge pre.length (utf8EncodeChar c).length with hlen | hlen
      · exfalso
        refine chunk_no_split h hlen (by simpa using hb) ?_
        by_contra hc
        rw [encodeChar_ascii c (by omega)] at hlen
        have h1 : 0 < pre.length := List.length_pos.mpr hne
        simp only [List.length_cons, List.length_nil] at hlen
        omega
      · have htake : utf8EncodeChar c = pre.take (utf8EncodeChar c).length := by
          have h1 : (utf8EncodeChar c ++ utf8Encode cs').take (utf8EncodeChar c).length
              = utf8EncodeChar c := List.take_left _ _
          rw [h, take_append_left (b :: rest) pre _ hlen] at h1
          exact h1.symm
        have hdrop : utf8Encode cs' = pre.drop (utf8EncodeChar c).length ++ b :: rest := by
          have h1 : (utf8EncodeChar c ++ utf8Encode cs').drop (utf8EncodeChar c).length
              = utf8Encode cs' := List.drop_left _ _
          rw [h, drop_append_left (b :: rest) pre _ hlen] at h1
          exact h1.symm
        obtain ⟨cs₁, cs₂, hd1, hd2, hd3⟩ := ih _ rest b hdrop hb
        have hpre : pre = utf8EncodeChar c ++ pre.drop (utf8EncodeChar c).length := by
          conv_lhs => rw [← List.take_append_drop (utf8EncodeChar c).length pre]
          rw [← htake]
        refine ⟨c :: cs₁, cs₂, ?_, ?_, hd3⟩
        · rw [List.cons_append, ← hd1]
        · rw [utf8Encode, hd2, ← hpre]

/-! ### Byte slices -/

lemma slice_length (data : List Nat) (s e : Nat) (he : e ≤ data.length) :
    (slice data s e).length = e - s := by
  simp only [slice, List.length_drop, List.length_take]
  omega

lemma slice_getD (data : List Nat) (s e i : Nat) (hi : s + i < e) :
    (slice data s e).getD i 0 = data.getD (s + i) 0 := by
  simp only [slice]
  rw [getD_drop, getD_take]
  exact hi

lemma slice_decomp (data : List Nat) (s' E e : Nat) (h1 : s' ≤ E) (h2 : E ≤ e) :
    data.take e = data.take s' ++ slice data s' E ++ (data.take e).drop E := by
  have ha : data.take e = (data.take e).take E ++ (data.take e).drop E :=
    (List.take_append_drop E (data.take e)).symm
  have hb : (data.take e).take E = data.take E := by
    rw [List.take_take, Nat.min_eq_left h2]
  have hc : data.take E = data.take s' ++ slice data s' E := by
    have hd := (List.take_append_drop s' (data.take E)).symm
    rw [List.take_take, Nat.min_eq_left h1] at hd
    exact hd
  conv_lhs => rw [ha, hb, hc]

/-! ### Fixed point property of trimmed tokens -/

/-- Re-parsing a string whose encoding contains no `b';'`, starts with a
non-whitespace byte, and either ends with a non-whitespace byte or has only
whitespace after its first byte, returns the string unchanged (with empty
parameters). -/
lemma parse_header_fixed (t u : List Nat) (hu : utf8Encode t = u)
    (hdec : utf8Decode u = some t)
    (hne : u ≠ [])
    (hhead : wsByte (u.getD 0 0) = false)
    (h59 : ∀ i, i < u.length → u.getD i 0 ≠ 59)
    (htail : (∀ i, 1 ≤ i → i < u.length → wsByte (u.getD i 0) = true) ∨
      wsByte (u.getD (u.length - 1) 0) = false) :
    parse_header t = (some t, []) := by
  have hlen : 0 < u.length := List.length_pos.mpr hne
  have hsemi : firstSemiAux u 0 u.length = u.length := by
    simpa using firstSemiAux_full u u.length 0 fun i h1 h2 => h59 i (by omega)
  have hstart : scanStart u 0 u.length = some 0 := by
    rw [scanStart, Nat.sub_zero]
    obtain ⟨n, hn⟩ : ∃ n, u.length = n + 1 := ⟨u.length - 1, by omega⟩
    rw [hn, scanStartAux, if_neg (by rw [hhead]; exact Bool.false_ne_true)]
  have hse : scanEnd u 1 u.length = none ∨ scanEnd u 1 u.length = some u.length := by
    rcases htail with htail | htail
    · left
      rw [scanEnd]
      exact scanEndAux_none_intro u (u.length - 1) u.length (by omega)
        fun i h1 h2 => htail i (by omega) h2
    · rcases Nat.lt_or_ge 1 u.length with h2 | h2
      · right
        rw [scanEnd]
        obtain ⟨m, hm⟩ : ∃ m, u.length - 1 = m + 1 := ⟨u.length - 2, by omega⟩
        rw [hm, scanEndAux, if_neg (by rw [htail]; exact Bool.false_ne_true)]
      · left
        rw [scanEnd]
        have h3 : u.length - 1 = 0 := by omega
        rw [h3]
        rfl
  have hslice : slice u 0 u.length = u := by simp [slice]
  have htr : _trimmed u 0 u.length = some t := by
    rcases hse with hcase | hcase <;>
      simp only [_trimmed, hstart, Nat.zero_add, hcase, hslice] <;>
      exact hdec
  rw [parse_header_eq, hu, hsemi, htr]

/-- Structure of the trimmed span cut from the encoding of a valid string:
decoding succeeds, the decoded token is scalar, contains no `';'`, and
re-parsing it is the identity. -/
lemma master_span (data : List Nat) (e s' E : Nat)
    (he_le : e ≤ data.length)
    (hno59 : ∀ i, i < e → data.getD i 0 ≠ 59)
    (hpre : ∃ cs₁, AllScalar cs₁ ∧ utf8Encode cs₁ = data.take e)
    (hsE : s' < E) (hEe : E ≤ e)
    (hhead : wsByte (data.getD s' 0) = false)
    (hws_head : ∀ i, i < s' → wsByte (data.getD i 0) = true)
    (hws_tail : ∀ i, E ≤ i → i < e → wsByte (data.getD i 0) = true)
    (hlast : (∀ i, s' + 1 ≤ i → i < E → wsByte (data.getD i 0) = true) ∨
      wsByte (data.getD (E - 1) 0) = false) :
    ∃ t, utf8Decode (slice data s' E) = some t ∧ AllScalar t ∧ (59 : Nat) ∉ t ∧
      parse_header t = (some t, []) := by
  obtain ⟨cs₁, hcs₁s, hcs₁⟩ := hpre
  have hdecomp : data.take e = data.take s' ++ slice data s' E ++ (data.take e).drop E :=
    slice_decomp data s' E e (by omega) hEe
  have hUws : ∀ b ∈ data.take s', wsByte b = true := by
    intro b hb
    obtain ⟨i, hi, hgi⟩ := mem_getD _ b hb
    rw [List.length_take] at hi
    rw [getD_take data s' i (by omega)] at hgi
    rw [← hgi]
    exact hws_head i (by omega)
  have hTws : ∀ b ∈ (data.take e).drop E, wsByte b = true := by
    intro b hb
    obtain ⟨i, hi, hgi⟩ := mem_getD _ b hb
    rw [List.length_drop, List.length_take] at hi
    rw [getD_drop, getD_take data e (E + i) (by omega)] at hgi
    rw [← hgi]
    exact hws_tail (E + i) (by omega) (by omega)
  obtain ⟨d, hd1, hd2⟩ := utf8Encode_prefix_ws (data.take s') cs₁
    (slice data s' E ++ (data.take e).drop E)
    (by
      rw [hcs₁]
      conv_lhs => rw [hdecomp]
      exact List.append_assoc _ _ _) hUws
  have hdscalar : AllScalar d := fun x hx => hcs₁s x (by rw [hd1]; simp [hx])
  obtain ⟨t, ht1, ht2, ht3⟩ := utf8Decode_span d (slice data s' E) ((data.take e).drop E)
    hdscalar hd2 hTws
  have htscalar : AllScalar t := fun x hx => hdscalar x (by rw [ht2]; simp [hx])
  have hslen : (slice data s' E).length = E - s' := slice_length data s' E (by omega)
  have hno59span : ∀ i, i < (slice data s' E).length → (slice data s' E).getD i 0 ≠ 59 := by
    intro i hi
    rw [hslen] at hi
    rw [slice_getD data s' E i (by omega)]
    exact hno59 (s' + i) (by omega)
  refine ⟨t, ht1, htscalar, ?_, ?_⟩
  · intro h59t
    have hmem : (59 : Nat) ∈ slice data s' E := by
      rw [← ht3]
      exact mem_utf8Encode_of_mem h59t (by omega)
    obtain ⟨i, hi, hgi⟩ := mem_getD _ _ hmem
    exact hno59span i hi hgi
  · refine parse_header_fixed t (slice data s' E) ht3 ht1 ?_ ?_ hno59span ?_
    · intro h0
      rw [h0] at hslen
      simp only [List.length_nil] at hslen
      omega
    · have hg := slice_getD data s' E 0 (by omega)
      rw [Nat.add_zero] at hg
      rw [hg]
      exact hhead
    · rcases hlast with hl | hl
      · left
        intro i h1 h2
        rw [hslen] at h2
        rw [slice_getD data s' E i (by omega)]
        exact hl (s' + i) (by omega) (by omega)
      · right
        rw [hslen]
        have hg := slice_getD data s' E (E - s' - 1) (by omega)
        rw [hg]
        have heq : s' + (E - s' - 1) = E - 1 := by omega
        rw [heq]
        exact hl

/-- Master lemma: on every valid input string `parse_header` succeeds with an
empty parameter mapping, and the primary token is a scalar string free of
`';'` on which `parse_header` acts as the identity. -/
lemma parse_header_master (line : List Nat) (h : AllScalar line) :
    ∃ t, parse_header line = (some t, []) ∧ AllScalar t ∧ (59 : Nat) ∉ t ∧
      parse_header t = (some t, []) := by
  obtain ⟨data, hdata⟩ : ∃ d, utf8Encode line = d := ⟨_, rfl⟩
  obtain ⟨e, he⟩ : ∃ x, firstSemiAux data 0 data.length = x := ⟨_, rfl⟩
  obtain ⟨hb1, hb2⟩ := firstSemiAux_bounds data data.length 0
  rw [he] at hb2
  have he_le : e ≤ data.length := by omega
  have hno59 : ∀ i, i < e → data.getD i 0 ≠ 59 := fun i hi =>
    firstSemiAux_no59 data data.length 0 i (Nat.zero_le i) (by rw [he]; exact hi)
  have hpre : ∃ cs₁, AllScalar cs₁ ∧ utf8Encode cs₁ = data.take e := by
    rcases Nat.lt_or_ge e data.length with hlt | hge
    · have hat : data.getD e 0 = 59 := by
        have h1 := firstSemiAux_at59 data data.length 0 (by rw [he]; omega)
        rw [he] at h1
        exact h1
      have hsplit : data = data.take e ++ 59 :: data.drop (e + 1) := by
        have h1 := List.drop_eq_getElem_cons hlt
        rw [← List.getD_eq_getElem data 0 hlt, hat] at h1
        conv_lhs => rw [← List.take_append_drop e data, h1]
      obtain ⟨cs₁, cs₂, hc1, hc2, hc3⟩ := utf8Encode_split_ascii line (data.take e)
        (data.drop (e + 1)) 59 (by rw [hdata]; exact hsplit) (by omega)
      exact ⟨cs₁, fun x hx => h x (by rw [hc1]; simp [hx]), hc2⟩
    · have hEq : e = data.length := by omega
      rw [hEq, List.take_length]
      exact ⟨line, h, hdata⟩
  have hph : parse_header line = (_trimmed data 0 e, []) := by
    rw [parse_header_eq, hdata, he]
  rcases hss : scanStart data 0 e with _ | s'
  · refine ⟨[], ?_, by decide, by decide, by decide⟩
    rw [hph]
    simp only [_trimmed, hss]
  · have hss' := hss
    rw [scanStart, Nat.sub_zero] at hss'
    obtain ⟨hs1, hs2, hs3, hs4⟩ := scanStartAux_some data e 0 s' hss'
    rcases hsee : scanEnd data (s' + 1) e with _ | e'
    · have hsee' := hsee
      rw [scanEnd] at hsee'
      have hwstail := scanEndAux_none data (e - (s' + 1)) e hsee'
      obtain ⟨t, ht1, ht2, ht3, ht4⟩ := master_span data e s' e he_le hno59 hpre
        (by omega) (le_refl e) hs3 (fun i hi => hs4 i (by omega) hi)
        (fun i h1 h2 => absurd h2 (by omega))
        (Or.inl fun i h1 h2 => hwstail i (by omega) h2)
      refine ⟨t, ?_, ht2, ht3, ht4⟩
      rw [hph]
      simp only [_trimmed, hss, hsee, Prod.mk.injEq]
      exact ⟨ht1, trivial⟩
    · have hsee' := hsee
      rw [scanEnd] at hsee'
      obtain ⟨hE1, hE2, hE3, hE4⟩ := scanEndAux_some data (e - (s' + 1)) e e' (by omega) hsee'
      obtain ⟨t, ht1, ht2, ht3, ht4⟩ := master_span data e s' e' he_le hno59 hpre
        (by omega) hE2 hs3 (fun i hi => hs4 i (by omega) hi) hE4 (Or.inr hE3)
      refine ⟨t, ?_, ht2, ht3, ht4⟩
      rw [hph]
      simp only [_trimmed, hss, hsee, Prod.mk.injEq]
      exact ⟨ht1, trivial⟩

/-! ## Claims -/

/-- C1 (code bug witnessed): on the input `x"a;b"`, code points
`[120, 34, 97, 59, 98, 34]`, the `;` at index 3 lies inside a quoted span,
yet the scan stops there (the code never sets `in_quotes` to `True`) and the
primary token is cut short to `x"a` = `[120, 34, 97]`.  The claim states the
scan must not stop at a quoted `;`. -/
theorem parse_header_cuts_at_quoted_semicolon :
    parse_header [120, 34, 97, 59, 98, 34] = (some [120, 34, 97], []) := by decide

/-- C2 (code bug witnessed): on the input `x"a;b` (an unterminated quote),
code points `[120, 34, 97, 59, 98]`, the claim states the whole trimmed
input becomes the primary token; the code instead cuts at the `;` at
index 3 and returns `x"a` = `[120, 34, 97]`, because the quoting state
never becomes "open". -/
theorem parse_header_cuts_at_unterminated_quote :
    parse_header [120, 34, 97, 59, 98] = (some [120, 34, 97], []) := by decide

/-- C3 (code bug witnessed): on the input `"a "` (one letter followed by a
space), code points `[97, 32]`, the primary token returned is `[97, 32]`,
which still carries the trailing space: the second loop of `_trimmed`
iterates over `range(end, start+1, -1)` and never updates `end` when every
byte after the first non-whitespace one is whitespace.  The claim states the
primary token never has trailing whitespace. -/
theorem parse_header_keeps_trailing_whitespace :
    parse_header [97, 32] = (some [97, 32], []) := by decide

/-- C4 (code bug witnessed): on the input `a"b;c";d`, code points
`[97, 34, 98, 59, 99, 34, 59, 100]`, the first unquoted `;` is at index 6,
so the claim demands the primary token `a"b;c"` = `[97, 34, 98, 59, 99, 34]`;
the code cuts at the first `;` overall (index 3, inside quotes) and returns
`a"b` = `[97, 34, 98]`. -/
theorem parse_header_splits_at_first_semicolon_even_quoted :
    parse_header [97, 34, 98, 59, 99, 34, 59, 100] = (some [97, 34, 98], []) := by decide

/-- C5 (code bug witnessed): the input `" c "`, code points `[32, 99, 32]`,
contains no `;` and no quote, so the claim demands the whitespace-stripped
primary token `[99]`; the code returns `[99, 32]` with the trailing space
kept (same trailing-trim slip as for C3). -/
theorem parse_header_no_separator_keeps_trailing_whitespace :
    parse_header [32, 99, 32] = (some [99, 32], []) := by decide

/-- C6: `parse_header` is total: for every input string (of Unicode scalar
values) it returns a `(primary_token, parameters)` pair, never a decoding
failure, the empty string included. -/
theorem parse_header_total (line : List Nat) (h : AllScalar line) :
    ∃ t, parse_header line = (some t, []) := by
  obtain ⟨t, h1, _, _, _⟩ := parse_header_master line h
  exact ⟨t, h1⟩

theorem parse_header_total_witness :
    AllScalar [104, 105] ∧ ∃ t, parse_header [104, 105] = (some t, []) :=
  ⟨by decide, parse_header_total [104, 105] (by decide)⟩

/-- C7: idempotence: if `p` is the primary token returned by `parse_header`
and `p` contains no `;`, then re-parsing `p` yields `p` itself with empty
parameters. -/
theorem parse_header_idempotent (line p : List Nat) (h : AllScalar line)
    (hp : (parse_header line).1 = some p) (hq : (59 : Nat) ∉ p) :
    parse_header p = (some p, []) := by
  obtain ⟨t, h1, _, _, h4⟩ := parse_header_master line h
  have hpt : t = p := by
    rw [h1] at hp
    simpa using hp
  rw [← hpt]
  exact h4

theorem parse_header_idempotent_witness :
    AllScalar [32, 97, 98] ∧ (parse_header [32, 97, 98]).1 = some [97, 98] ∧
      (59 : Nat) ∉ [97, 98] ∧ parse_header [97, 98] = (some [97, 98], []) :=
  ⟨by decide, by decide, by decide,
    parse_header_idempotent [32, 97, 98] [97, 98] (by decide) (by decide) (by decide)⟩

/-- C8: the empty input parses to `("", {})`, and every input consisting
only of whitespace code points (space, tab, CR, LF) also parses to
`("", {})`. -/
theorem parse_header_empty_and_whitespace (line : List Nat)
    (h : ∀ c ∈ line, wsByte c = true) :
    parse_header [] = (some [], []) ∧ parse_header line = (some [], []) := by
  refine ⟨by decide, ?_⟩
  have hasc : ∀ c ∈ line, c < 128 := fun c hc => ws_lt_128 (h c hc)
  have henc : utf8Encode line = line := utf8Encode_ascii hasc
  have hno59 : ∀ i, i < line.length → line.getD i 0 ≠ 59 := by
    intro i hi
    have hmem := getD_mem line i hi
    have hws := h _ hmem
    simp only [wsByte, Bool.or_eq_true, beq_iff_eq] at hws
    omega
  have hsemi : firstSemiAux line 0 line.length = line.length := by
    simpa using firstSemiAux_full line line.length 0 fun i h1 h2 => hno59 i (by omega)
  have hstart : scanStart line 0 line.length = none := by
    rw [scanStart, Nat.sub_zero]
    exact scanStartAux_none_intro line line.length 0 fun i h1 h2 =>
      h _ (getD_mem line i (by omega))
  rw [parse_header_eq, henc, hsemi]
  simp only [_trimmed, hstart]

theorem parse_header_empty_and_whitespace_witness :
    (∀ c ∈ [32, 9, 13, 10], wsByte c = true) ∧
      (parse_header [] = (some [], []) ∧ parse_header [32, 9, 13, 10] = (some [], [])) :=
  ⟨by decide, parse_header_empty_and_whitespace [32, 9, 13, 10] (by decide)⟩

/-- C9 (implicit): the primary token returned by `parse_header` never
contains a `;` code point, for any input whatsoever — quoted spans and
unterminated quotes included — because the scan always cuts at the first
`b';'` byte regardless of the quoting state. -/
theorem primary_token_no_semicolon (line p : List Nat) (h : AllScalar line)
    (hp : (parse_header line).1 = some p) : (59 : Nat) ∉ p := by
  obtain ⟨t, h1, _, h3, _⟩ := parse_header_master line h
  have hpt : t = p := by
    rw [h1] at hp
    simpa using hp
  rw [← hpt]
  exact h3

theorem primary_token_no_semicolon_witness :
    AllScalar [97, 34, 98, 59, 99] ∧
      (parse_header [97, 34, 98, 59, 99]).1 = some [97, 34, 98] ∧
      (59 : Nat) ∉ [97, 34, 98] :=
  ⟨by decide, by decide,
    primary_token_no_semicolon [97, 34, 98, 59, 99] [97, 34, 98] (by decide) (by decide)⟩

/-- C10 (implicit): for every input string of Unicode scalar values, the
UTF-8 decode of the trimmed primary-token span never fails: trimming and
splitting only remove or cut at ASCII byte values (space, tab, CR, LF, `;`),
which cannot occur inside a multi-byte UTF-8 sequence, so the decoded span
is always valid UTF-8 and `parse_header` never returns a decode failure. -/
theorem parse_header_decode_never_fails (line : List Nat) (h : AllScalar line) :
    (parse_header line).1 ≠ none := by
  obtain ⟨t, h1, _, _, _⟩ := parse_header_master line h
  rw [h1]
  simp

theorem parse_header_decode_never_fails_witness :
    AllScalar [116, 47, 112] ∧ (parse_header [116, 47, 112]).1 ≠ none :=
  ⟨by decide, parse_header_decode_never_fails [116, 47, 112] (by decide)⟩

end Falcon
